import Mathlib

/-!
Verification of the tensor-network contraction core of `TensorNetworkCode`
(`src/tensornetworkqecc/tensornetworkcode.py`).

A tensor is a numeric array with named legs; a network is a collection of
tensors; contracting a label sums the shared dimension, merging the tensors
that expose that label.  The Python class delegates the array work to the
quimb library; the quimb primitives (`copy`, `ind_map`, `contract_ind`,
`reindex_`, `add_tensor`) are not part of the repository sources and are
therefore modelled from the specification (sections 4.1 and 4.2), while the
`TensorNetworkCode` methods are translated directly from the Python source.

Embedding choices: array data is a function from leg assignments
(`String → Nat`) to integers, so leg order is irrelevant to numeric content;
stateful Python methods become explicit state passing, each method returning
its result paired with the post-state of the `TensorNetworkCode` object.
-/

/-- Point update of an assignment of values to leg names. -/
def upd (a : String → Nat) (l : String) (v : Nat) : String → Nat :=
  fun s => if s = l then v else a s

/-- A tensor: an ordered list of leg names, the dimension carried by each
name, and the numeric data, read off at an assignment of index values to
leg names.  Reading data through assignments makes a repeated leg name act
diagonally, which is the hyperedge semantics of the underlying primitive. -/
structure Tensor where
  legs : List String
  dim : String → Nat
  data : (String → Nat) → Int

/-- A tensor network is its collection of tensors (`TensorNetwork.tensor_map`
in quimb; order is the insertion order). -/
abbrev TN := List Tensor

/-- Whether a tensor exposes leg `l` (membership of `l` in `t.inds`). -/
def Tensor.hasLeg (t : Tensor) (l : String) : Bool := t.legs.contains l

/-- Modelled from the spec: the entry of the derived `ind_map` at label `l`,
namely the tensors currently exposing `l` (spec section 3, TensorNetwork). -/
def tensorsWith (tn : TN) (l : String) : TN := tn.filter (fun t => t.hasLeg l)

/-- Whether label `l` is present in the network, i.e. `l in tn.ind_map`. -/
def containsInd (tn : TN) (l : String) : Bool := tn.any (fun t => t.hasLeg l)

/-- The dimension the network assigns to label `l`: the dimension recorded by
the first tensor exposing `l`, or `0` when no tensor does. -/
def dimAt (tn : TN) (l : String) : Nat :=
  match tn.find? (fun t => t.hasLeg l) with
  | some t => t.dim l
  | none => 0

/-- Modelled from the spec (section 4.2, `contract_ind`): the tensor obtained
by merging all tensors exposing `l`, summing the shared dimension `l`:
its legs are the union of the input legs minus `l`, and its entries are the
sums over `l` of the products of the input entries. -/
def mergedTensor (tn : TN) (l : String) : Tensor where
  legs := (((tensorsWith tn l).map Tensor.legs).flatten.dedup).filter (fun s => s != l)
  dim := fun s => dimAt (tensorsWith tn l) s
  data := fun a =>
    ∑ v ∈ Finset.range (dimAt tn l),
      ((tensorsWith tn l).map (fun t => t.data (upd a l v))).prod

/-- Modelled from the spec (section 4.2, `contract_ind`): replace the tensors
exposing `l` by their merger; `l` disappears from the `ind_map`. -/
def contractIndCore (tn : TN) (l : String) : TN :=
  (tn.filter (fun t => !(t.hasLeg l))) ++ [mergedTensor tn l]

/-- The Python failures the contraction engine can raise.  `indexNotFound`
is the ValueError with message naming the index raised by `contract_indices`
and `contract_two_indices`; `indexNotFoundAfterFusing` is the ValueError of
`fuse_and_contract_indices` (message suffixed with the words after fusing);
`keyError` is the LookupError raised inside the underlying primitive when
`contract_ind` is called on an absent label (spec section 4.2).  Every
variant carries the specific missing label name. -/
inductive PyErr where
  | indexNotFound (ind : String)
  | indexNotFoundAfterFusing (ind : String)
  | keyError (ind : String)
  deriving DecidableEq

/-- Modelled from the spec (section 4.2): `contract_ind` on a label not in
`ind_map` fails with a LookupError-kind failure naming the missing label;
otherwise it merges the tensors exposing the label. -/
def TN.contract_ind (tn : TN) (l : String) : Except PyErr TN :=
  if containsInd tn l then .ok (contractIndCore tn l) else .error (.keyError l)

/-- Modelled from the spec (section 4.2): `copy` yields a clone whose
mutation never affects the original; with value semantics a copy is the
value itself, and mutation is modelled functionally. -/
def TN.copy (tn : TN) : TN := tn

/-- Modelled from the spec (section 4.2): `add_tensor` appends the tensor;
the derived `ind_map` then maps every leg of `t` to the previous owners
together with `t`. -/
def TN.add_tensor (tn : TN) (t : Tensor) : TN := tn ++ [t]

/-- Modelled from the spec (section 4.1, `rename_leg`) and quimb
`t.reindex_(\x7bind2: ind1\x7d)`: rename leg `i2` to `i1` when present,
leaving the tensor unchanged when `i2` is not one of its legs. -/
def Tensor.reindex (t : Tensor) (i2 i1 : String) : Tensor :=
  if t.legs.contains i2 then
    { legs := t.legs.map (fun s => if s = i2 then i1 else s)
      dim := fun s => if s = i1 then t.dim i2 else t.dim s
      data := fun a => t.data (fun s => if s = i2 then a i1 else a s) }
  else t

/-- The labels currently shared by more than one tensor (internal legs). -/
def sharedInds (tn : TN) : List String :=
  ((tn.map Tensor.legs).flatten.dedup).filter (fun l => 2 ≤ (tensorsWith tn l).length)

/-- Modelled from the spec (section 4.2, full contraction): repeatedly
contract every shared label; the order is unspecified (delegated to the
optimizer), so a canonical first-appearance order is fixed here and
order-independence is proved separately. -/
def TN.fullContract (tn : TN) : TN := (sharedInds tn).foldl contractIndCore tn

/-- The `TensorNetworkCode` object: the caller-supplied tensor collection,
the owned network built from it, and the opaque optional structure. -/
structure TensorNetworkCode where
  tensors : List Tensor
  network : TN
  networkStructure : Option Unit

/-- `TensorNetworkCode.__init__`: keeps the supplied tensors and builds the
owned network from them. -/
def TensorNetworkCode.init (tensors : List Tensor) : TensorNetworkCode :=
  { tensors := tensors, network := tensors, networkStructure := none }

/-- The loop body of `contract_indices`: for each label in order, check it
is in the clone's `ind_map` (else raise ValueError naming it), then
`contract_ind` it. -/
def contractIndicesGo : TN → List String → Except PyErr TN
  | tn, [] => .ok tn
  | tn, ind :: rest =>
    if containsInd tn ind then
      match TN.contract_ind tn ind with
      | .ok tn2 => contractIndicesGo tn2 rest
      | .error e => .error e
    else .error (.indexNotFound ind)

/-- `TensorNetworkCode.contract_indices`: clone the network, then run the
check-and-contract loop on the clone; `self` is never mutated. -/
def TensorNetworkCode.contract_indices (c : TensorNetworkCode)
    (indices : List String) : Except PyErr TN × TensorNetworkCode :=
  (contractIndicesGo (TN.copy c.network) indices, c)

/-- `TensorNetworkCode.contract_two_indices`: clone, check `ind1` then
`ind2` against the clone's `ind_map` (ValueError naming whichever is
missing), then `contract_ind(ind1)` and `contract_ind(ind2)` with no
re-validation between the two steps. -/
def TensorNetworkCode.contract_two_indices (c : TensorNetworkCode)
    (ind1 ind2 : String) : Except PyErr TN × TensorNetworkCode :=
  (let tn := TN.copy c.network
   if !(containsInd tn ind1) then .error (.indexNotFound ind1)
   else if !(containsInd tn ind2) then .error (.indexNotFound ind2)
   else do
     let tn1 ← TN.contract_ind tn ind1
     let tn2 ← TN.contract_ind tn1 ind2
     pure tn2
   , c)

/-- `TensorNetworkCode.fuse_and_contract_indices`: clone, rename every
occurrence of `ind2` to `ind1` on the clone's tensors, check `ind1` is in
the clone's `ind_map` (else ValueError with the after-fusing message), then
`contract_ind(ind1)`. -/
def TensorNetworkCode.fuse_and_contract_indices (c : TensorNetworkCode)
    (ind1 ind2 : String) : Except PyErr TN × TensorNetworkCode :=
  (let tn := TN.copy c.network
   let tn2 := tn.map (fun t => t.reindex ind2 ind1)
   if !(containsInd tn2 ind1) then .error (.indexNotFoundAfterFusing ind1)
   else TN.contract_ind tn2 ind1
   , c)

/-- `TensorNetworkCode.add_tensor`: adds directly to the owned network —
a genuine mutation of the permanent state, and it never raises. -/
def TensorNetworkCode.add_tensor (c : TensorNetworkCode) (t : Tensor) :
    TensorNetworkCode :=
  { c with network := TN.add_tensor c.network t }

/-- `TensorNetworkCode.get_tensors`: the owned network's tensor collection. -/
def TensorNetworkCode.get_tensors (c : TensorNetworkCode) : List Tensor :=
  c.network

/-- `TensorNetworkCode.contract`: delegates full contraction to the owned
network (modelled from the spec, section 4.2). -/
def TensorNetworkCode.contract (c : TensorNetworkCode) : TN :=
  TN.fullContract c.network

/-- The numeric content of a network at an assignment: the product of its
tensors' entries there.  Contraction of all labels of a set in any order
preserves it pointwise on the others (proved below). -/
def weight (tn : TN) (a : String → Nat) : Int :=
  (tn.map (fun t => t.data a)).prod

/-- A tensor's data reads the assignment only at its own legs. -/
def Respects (t : Tensor) : Prop :=
  ∀ a b, (∀ s, s ∈ t.legs → a s = b s) → t.data a = t.data b

/-- Well-formed network: data localized to legs, and all tensors agree on
the dimension of every shared leg name. -/
def WF (tn : TN) : Prop :=
  (∀ t ∈ tn, Respects t) ∧
  (∀ t ∈ tn, ∀ u ∈ tn, ∀ s, s ∈ t.legs → s ∈ u.legs → t.dim s = u.dim s)

/-- The state of the clone after the `contract_indices` loop has processed
the given labels successfully, `none` if some label was missing when its
turn came. -/
def contractSeq : TN → List String → Option TN
  | tn, [] => some tn
  | tn, l :: rest =>
    if containsInd tn l then contractSeq (contractIndCore tn l) rest else none

/-- Modelled from the spec (property P4): the hypothetical operation of
globally renaming `i2` to `i1` on every tensor of the owned network,
yielding a new code object; used to state the refinement claim against
`fuse_and_contract_indices`. -/
def specRenameAll (c : TensorNetworkCode) (i2 i1 : String) : TensorNetworkCode :=
  { c with network := c.network.map (fun t => t.reindex i2 i1) }

/-- Concrete example tensor with legs `a`, `b` (dimension 2 each). -/
def Ta : Tensor :=
  { legs := ["a", "b"], dim := fun _ => 2, data := fun f => (f "a" : Int) + f "b" }

/-- Concrete example tensor with legs `b`, `c` (dimension 2 each). -/
def Tb : Tensor :=
  { legs := ["b", "c"], dim := fun _ => 2, data := fun f => (f "b" : Int) * f "c" }

/-- Concrete example tensor with legs `c`, `d` (dimension 2 each). -/
def Tc : Tensor :=
  { legs := ["c", "d"], dim := fun _ => 2, data := fun f => (f "c" : Int) - f "d" }

/-- Concrete example code object holding the two-tensor network in which
`b` is the one shared leg. -/
def code0 : TensorNetworkCode := TensorNetworkCode.init [Ta, Tb]

/-- Concrete example code object holding the three-tensor chain network
with shared legs `b` and `c`. -/
def code1 : TensorNetworkCode := TensorNetworkCode.init [Ta, Tb, Tc]

lemma hasLeg_iff {t : Tensor} {l : String} : t.hasLeg l = true ↔ l ∈ t.legs := by
  simp [Tensor.hasLeg]

lemma containsInd_iff {tn : TN} {l : String} :
    containsInd tn l = true ↔ ∃ t ∈ tn, l ∈ t.legs := by
  simp [containsInd, Tensor.hasLeg, List.any_eq_true]

lemma mergedTensor_hasLeg_self (tn : TN) (l : String) :
    (mergedTensor tn l).hasLeg l = false := by
  simp [mergedTensor, Tensor.hasLeg, List.mem_filter]

lemma contains_core_self (tn : TN) (l : String) :
    containsInd (contractIndCore tn l) l = false := by
  rw [Bool.eq_false_iff]
  intro hc
  rcases containsInd_iff.mp hc with ⟨t, ht, hl⟩
  rcases List.mem_append.mp ht with h | h
  · have h2 := (List.mem_filter.mp h).2
    rw [Bool.not_eq_eq_eq_not, Bool.not_true, Bool.eq_false_iff] at h2
    exact h2 (hasLeg_iff.mpr hl)
  · have he : t = mergedTensor tn l := by simpa using h
    subst he
    have hm := mergedTensor_hasLeg_self tn l
    rw [Bool.eq_false_iff] at hm
    exact hm (hasLeg_iff.mpr hl)

lemma contractIndicesGo_append_fail (post : List String) (l : String) :
    ∀ (tn0 tn : TN) (pre : List String), contractSeq tn0 pre = some tn →
      containsInd tn l = false →
      contractIndicesGo tn0 (pre ++ l :: post) = .error (.indexNotFound l) := by
  intro tn0 tn pre
  induction pre generalizing tn0 with
  | nil =>
    intro hseq hl
    simp [contractSeq] at hseq
    subst hseq
    simp [contractIndicesGo, hl]
  | cons p pre ih =>
    intro hseq hl
    rw [contractSeq] at hseq
    by_cases hp : containsInd tn0 p = true
    · rw [if_pos hp] at hseq
      simp only [List.cons_append, contractIndicesGo, hp, if_true]
      rw [TN.contract_ind, if_pos hp]
      exact ih _ hseq hl
    · rw [if_neg hp] at hseq
      exact absurd hseq (by simp)

/-- Claim C1: non-destructive contraction.  For every code object and every
label sequence processed by `contract_indices`, `contract_two_indices` or
`fuse_and_contract_indices`, whether the call returns a network or raises,
the post-state of the object is unchanged: the owned network, its tensor
collection as seen through `get_tensors`, and every `ind_map` entry are
exactly what they were before the call. -/
theorem claim_C1_nondestructive (c : TensorNetworkCode) (L : List String)
    (i1 i2 : String) :
    (c.contract_indices L).2 = c ∧
    (c.contract_two_indices i1 i2).2 = c ∧
    (c.fuse_and_contract_indices i1 i2).2 = c ∧
    (c.contract_indices L).2.get_tensors = c.get_tensors ∧
    (∀ l, tensorsWith (c.contract_indices L).2.network l
        = tensorsWith c.network l) :=
  ⟨rfl, rfl, rfl, rfl, fun _ => rfl⟩

/-- Claim C2: every contraction method called with a label absent from the
relevant `ind_map` fails with the LookupError-kind failure carrying exactly
that missing label (for `fuse_and_contract_indices` the relevant map is the
one after the rename pass); in particular `contract_indices` on a single
absent label `z` fails naming `z`. -/
theorem claim_C2_missing_label_error (c : TensorNetworkCode)
    (z i1 i2 : String) (h : containsInd c.network z = false) :
    (c.contract_indices [z]).1 = .error (.indexNotFound z) ∧
    (c.contract_two_indices z i2).1 = .error (.indexNotFound z) ∧
    (containsInd c.network i1 = true →
      (c.contract_two_indices i1 z).1 = .error (.indexNotFound z)) ∧
    (containsInd (c.network.map (fun t => t.reindex i2 z)) z = false →
      (c.fuse_and_contract_indices z i2).1
        = .error (.indexNotFoundAfterFusing z)) := by
  refine ⟨?_, ?_, ?_, ?_⟩
  · simp [TensorNetworkCode.contract_indices, contractIndicesGo, TN.copy, h]
  · simp [TensorNetworkCode.contract_two_indices, TN.copy, h]
  · intro h1
    simp [TensorNetworkCode.contract_two_indices, TN.copy, h, h1]
  · intro hf
    simp [TensorNetworkCode.fuse_and_contract_indices, TN.copy, hf]

/-- Claim C5: `contract_two_indices` validates both labels on the clone
before any contraction, checking `ind1` first; on success it contracts
`ind1` and then `ind2` with no re-validation in between, so when the first
contraction removes `ind2` from the `ind_map` the second step fails with
the missing-label (KeyError) failure even though `ind2` existed at call
time. -/
theorem claim_C5_two_indices_sequencing (c : TensorNetworkCode)
    (i1 i2 : String) :
    (containsInd c.network i1 = false →
      (c.contract_two_indices i1 i2).1 = .error (.indexNotFound i1)) ∧
    (containsInd c.network i1 = true → containsInd c.network i2 = false →
      (c.contract_two_indices i1 i2).1 = .error (.indexNotFound i2)) ∧
    (containsInd c.network i1 = true → containsInd c.network i2 = true →
      (c.contract_two_indices i1 i2).1
        = TN.contract_ind (contractIndCore c.network i1) i2) ∧
    (containsInd c.network i1 = true → containsInd c.network i2 = true →
      containsInd (contractIndCore c.network i1) i2 = false →
      (c.contract_two_indices i1 i2).1 = .error (.keyError i2)) := by
  refine ⟨?_, ?_, ?_, ?_⟩
  · intro h1
    simp [TensorNetworkCode.contract_two_indices, TN.copy, h1]
  · intro h1 h2
    simp [TensorNetworkCode.contract_two_indices, TN.copy, h1, h2]
  · intro h1 h2
    simp only [TensorNetworkCode.contract_two_indices, TN.copy, h1, h2,
      TN.contract_ind, Bind.bind, Except.bind, Bool.not_true, Bool.false_eq_true,
      if_false, if_true]
    cases hc : containsInd (contractIndCore c.network i1) i2 <;>
      simp [hc, pure, Except.pure]
  · intro h1 h2 h3
    simp [TensorNetworkCode.contract_two_indices, TN.copy, h1, h2,
      TN.contract_ind, h3, Bind.bind, Except.bind]

/-- Witness for claim C5 at the shared label `b` of the concrete two-tensor
network: both up-front checks pass, contracting `b` removes it, and the
call fails with the KeyError naming `b`. -/
theorem claim_C5_two_indices_sequencing_witness :
    containsInd code0.network "b" = true ∧
    containsInd (contractIndCore code0.network "b") "b" = false ∧
    (code0.contract_two_indices "b" "b").1 = .error (.keyError "b") :=
  ⟨by decide, by decide,
    (claim_C5_two_indices_sequencing code0 "b" "b").2.2.2
      (by decide) (by decide) (by decide)⟩

/-- Claim C6: `contract_indices` processes the labels strictly in sequence
order, checking each against the current clone and contracting it before
moving on; when a later label is absent at its turn (for instance because
an earlier label of the same call removed it) the call fails exactly there
with the earlier contractions already performed on the clone. -/
theorem claim_C6_in_order_interleaved (c : TensorNetworkCode) (tn : TN)
    (pre post : List String) (l : String) :
    (∀ (tn0 : TN) (rest : List String),
      contractIndicesGo tn0 (l :: rest)
        = if containsInd tn0 l then
            contractIndicesGo (contractIndCore tn0 l) rest
          else .error (.indexNotFound l)) ∧
    (contractSeq c.network pre = some tn → containsInd tn l = false →
      (c.contract_indices (pre ++ l :: post)).1
        = .error (.indexNotFound l)) := by
  constructor
  · intro tn0 rest
    by_cases hc : containsInd tn0 l = true
    · simp [contractIndicesGo, hc, TN.contract_ind]
    · rw [Bool.not_eq_true] at hc
      simp [contractIndicesGo, hc]
  · intro hseq hl
    exact contractIndicesGo_append_fail post l c.network tn pre hseq hl

/-- Witness for claim C6: on the concrete network, `contract_indices` of
the list `b, b` contracts the first `b` and then fails naming `b`, the
first contraction having removed it. -/
theorem claim_C6_in_order_interleaved_witness :
    contractSeq code0.network ["b"] = some (contractIndCore code0.network "b") ∧
    containsInd (contractIndCore code0.network "b") "b" = false ∧
    (code0.contract_indices ["b", "b"]).1 = .error (.indexNotFound "b") :=
  ⟨rfl, by decide,
    (claim_C6_in_order_interleaved code0 (contractIndCore code0.network "b")
      ["b"] [] "b").2 rfl (by decide)⟩

/-- Claim C8: `add_tensor` genuinely mutates the owned network: it appends
the tensor, the `ind_map` entry of every leg of the tensor gains it behind
the previous owners while other entries are unchanged (so a collision with
a single-owner label simply connects the two tensors), the call is total
(never raises), and the mutation is visible through `get_tensors`. -/
theorem claim_C8_add_tensor (c : TensorNetworkCode) (t : Tensor) :
    (c.add_tensor t).get_tensors = c.get_tensors ++ [t] ∧
    (∀ l, t.legs.contains l = true →
      tensorsWith (c.add_tensor t).network l = tensorsWith c.network l ++ [t]) ∧
    (∀ l, t.legs.contains l = false →
      tensorsWith (c.add_tensor t).network l = tensorsWith c.network l) := by
  refine ⟨rfl, ?_, ?_⟩
  · intro l h
    have hm : l ∈ t.legs := by simpa using h
    simp [TensorNetworkCode.add_tensor, TensorNetworkCode.get_tensors,
      TN.add_tensor, tensorsWith, List.filter_append, Tensor.hasLeg, hm]
  · intro l h
    have hm : l ∉ t.legs := by simpa using h
    simp [TensorNetworkCode.add_tensor, TensorNetworkCode.get_tensors,
      TN.add_tensor, tensorsWith, List.filter_append, Tensor.hasLeg, hm]

/-- Witness for claim C8: adding the `c d` tensor to the concrete network
extends the `ind_map` entry of `c` and leaves the entry of `a` alone. -/
theorem claim_C8_add_tensor_witness :
    tensorsWith (code0.add_tensor Tc).network "c"
      = tensorsWith code0.network "c" ++ [Tc] ∧
    tensorsWith (code0.add_tensor Tc).network "a"
      = tensorsWith code0.network "a" :=
  ⟨(claim_C8_add_tensor code0 Tc).2.1 "c" (by decide),
   (claim_C8_add_tensor code0 Tc).2.2 "a" (by decide)⟩

/-- Claim C9: `contract_two_indices` with the same label twice is not
guarded: for any label present in the network, both up-front checks read
the same entry and pass, the label is contracted once on the clone, and the
second contraction then fails with the KeyError naming the label, so the
call never succeeds. -/
theorem claim_C9_same_label_twice (c : TensorNetworkCode) (x : String)
    (h : containsInd c.network x = true) :
    (c.contract_two_indices x x).1 = .error (.keyError x) := by
  simp [TensorNetworkCode.contract_two_indices, TN.copy, h, TN.contract_ind,
    contains_core_self, Bind.bind, Except.bind]

/-- Witness for claim C9 at the open leg `a` of the concrete network. -/
theorem claim_C9_same_label_twice_witness :
    containsInd code0.network "a" = true ∧
    (code0.contract_two_indices "a" "a").1 = .error (.keyError "a") :=
  ⟨by decide, claim_C9_same_label_twice code0 "a" (by decide)⟩

/-- Claim C10: `fuse_and_contract_indices` never checks that `ind2` exists:
when no tensor carries `ind2` but `ind1` is present, the rename pass leaves
every tensor unchanged and the call succeeds with the same result as
`contract_indices([ind1])`; no error is raised for the nonexistent `ind2`. -/
theorem claim_C10_fuse_missing_ind2 (c : TensorNetworkCode) (i1 i2 : String)
    (h2 : ∀ t ∈ c.network, t.legs.contains i2 = false)
    (h1 : containsInd c.network i1 = true) :
    (c.fuse_and_contract_indices i1 i2).1 = .ok (contractIndCore c.network i1) ∧
    (c.fuse_and_contract_indices i1 i2).1 = (c.contract_indices [i1]).1 := by
  have hmap : c.network.map (fun t => t.reindex i2 i1) = c.network := by
    have : ∀ t ∈ c.network, t.reindex i2 i1 = t := by
      intro t ht
      have hm : i2 ∉ t.legs := by simpa using h2 t ht
      simp [Tensor.reindex, hm]
    calc c.network.map (fun t => t.reindex i2 i1)
        = c.network.map id := List.map_congr_left this
      _ = c.network := List.map_id c.network
  constructor
  · simp [TensorNetworkCode.fuse_and_contract_indices, TN.copy, hmap, h1,
      TN.contract_ind]
  · simp [TensorNetworkCode.fuse_and_contract_indices,
      TensorNetworkCode.contract_indices, contractIndicesGo, TN.copy, hmap,
      h1, TN.contract_ind]

/-- Witness for claim C10: fusing the nonexistent leg `z` into the shared
leg `b` of the concrete network succeeds and equals plain contraction of
`b`. -/
theorem claim_C10_fuse_missing_ind2_witness :
    (code0.fuse_and_contract_indices "b" "z").1
      = .ok (contractIndCore code0.network "b") ∧
    (code0.fuse_and_contract_indices "b" "z").1
      = (code0.contract_indices ["b"]).1 :=
  claim_C10_fuse_missing_ind2 code0 "b" "z" (by decide) (by decide)

/-- Witness for claim C2 on the concrete network, where no tensor has leg
`z`: each contraction method fails naming `z`. -/
theorem claim_C2_missing_label_error_witness :
    (code0.contract_indices ["z"]).1 = .error (.indexNotFound "z") ∧
    (code0.contract_two_indices "a" "z").1 = .error (.indexNotFound "z") ∧
    (code0.fuse_and_contract_indices "z" "q").1
      = .error (.indexNotFoundAfterFusing "z") :=
  ⟨(claim_C2_missing_label_error code0 "z" "a" "q" (by decide)).1,
   (claim_C2_missing_label_error code0 "z" "a" "q" (by decide)).2.2.1
     (by decide),
   (claim_C2_missing_label_error code0 "z" "a" "q" (by decide)).2.2.2
     (by decide)⟩

/-- Claim C3: for two 2 by 2 tensors with legs `a b` and `b c` sharing
exactly `b`, `contract_indices` of `b` returns a network with a single
tensor whose legs are `a` and `c` (the union of the inputs minus `b`),
whose entries are the standard matrix product of the two tensors summed
over axis `b`, and whose `ind_map` no longer has `b`. -/
theorem claim_C3_matrix_product (M1 M2 : Nat → Nat → Int) :
    ∃ R : Tensor,
      ((TensorNetworkCode.init
        [{ legs := ["a", "b"], dim := fun _ => 2,
           data := fun f => M1 (f "a") (f "b") },
         { legs := ["b", "c"], dim := fun _ => 2,
           data := fun f => M2 (f "b") (f "c") }]).contract_indices ["b"]).1
        = .ok [R] ∧
      R.legs = ["a", "c"] ∧
      containsInd [R] "b" = false ∧
      ∀ f, R.data f = ∑ j ∈ Finset.range 2, M1 (f "a") j * M2 j (f "c") := by
  refine ⟨_, rfl, ?_, ?_, ?_⟩
  · rfl
  · rfl
  · intro f
    show (∑ v ∈ Finset.range (dimAt _ "b"), _) = _
    refine Finset.sum_congr rfl ?_
    intro j hj
    show M1 (upd f "b" j "a") (upd f "b" j "b")
        * (M2 (upd f "b" j "b") (upd f "b" j "c") * 1)
      = M1 (f "a") j * M2 j (f "c")
    simp [upd]

/-- Claim C4: on any network in which no tensor carries the label `i1`
twice, `fuse_and_contract_indices(i1, i2)` produces the same numeric
result as first globally renaming `i2` to `i1` on every tensor and then
calling `contract_indices([i1])`: the two calls succeed together and, when
they succeed, return the same network. -/
theorem claim_C4_fuse_equals_rename_then_contract (c : TensorNetworkCode)
    (i1 i2 : String) (h : ∀ t ∈ c.network, t.legs.count i1 ≤ 1) :
    Except.toOption (c.fuse_and_contract_indices i1 i2).1
      = Except.toOption ((specRenameAll c i2 i1).contract_indices [i1]).1 := by
  clear h
  by_cases hc : containsInd (c.network.map (fun t => t.reindex i2 i1)) i1 = true
  · simp [TensorNetworkCode.fuse_and_contract_indices,
      TensorNetworkCode.contract_indices, specRenameAll, TN.copy,
      contractIndicesGo, hc, TN.contract_ind]
  · rw [Bool.not_eq_true] at hc
    simp [TensorNetworkCode.fuse_and_contract_indices,
      TensorNetworkCode.contract_indices, specRenameAll, TN.copy,
      contractIndicesGo, hc, TN.contract_ind, Except.toOption]

/-- Witness for claim C4 at the concrete network: fusing `d` (absent) into
`b` matches renaming `d` to `b` and contracting `b`. -/
theorem claim_C4_fuse_equals_rename_then_contract_witness :
    (∀ t ∈ code0.network, t.legs.count "b" ≤ 1) ∧
    Except.toOption (code0.fuse_and_contract_indices "b" "d").1
      = Except.toOption ((specRenameAll code0 "d" "b").contract_indices ["b"]).1 :=
  ⟨by decide,
    claim_C4_fuse_equals_rename_then_contract code0 "b" "d" (by decide)⟩

lemma weight_nil (a : String → Nat) : weight [] a = 1 := rfl

lemma weight_cons (t : Tensor) (tn : TN) (a : String → Nat) :
    weight (t :: tn) a = t.data a * weight tn a := by
  simp [weight]

lemma weight_append (tn1 tn2 : TN) (a : String → Nat) :
    weight (tn1 ++ tn2) a = weight tn1 a * weight tn2 a := by
  simp [weight]

lemma weight_congr {tn : TN} {a b : String → Nat}
    (h : ∀ t ∈ tn, t.data a = t.data b) : weight tn a = weight tn b := by
  induction tn with
  | nil => rfl
  | cons t tn ih =>
    rw [weight_cons, weight_cons, h t (by simp),
      ih (fun u hu => h u (by simp [hu]))]

lemma weight_filter_mul (tn : TN) (p : Tensor → Bool) (a : String → Nat) :
    weight (tn.filter p) a * weight (tn.filter (fun t => !(p t))) a
      = weight tn a := by
  induction tn with
  | nil => simp [weight]
  | cons t tn ih =>
    cases hp : p t with
    | true =>
      have h1 : (t :: tn).filter p = t :: tn.filter p := by simp [hp]
      have h2 : (t :: tn).filter (fun u => !(p u)) = tn.filter (fun u => !(p u)) := by
        simp [hp]
      rw [h1, h2, weight_cons, weight_cons, mul_assoc, ih]
    | false =>
      have h1 : (t :: tn).filter p = tn.filter p := by simp [hp]
      have h2 : (t :: tn).filter (fun u => !(p u))
          = t :: tn.filter (fun u => !(p u)) := by simp [hp]
      rw [h1, h2, weight_cons, weight_cons, ← ih]
      ring

lemma mem_merged_legs {tn : TN} {l s : String} :
    s ∈ (mergedTensor tn l).legs
      ↔ (∃ t ∈ tensorsWith tn l, s ∈ t.legs) ∧ s ≠ l := by
  simp [mergedTensor, List.mem_filter, List.mem_dedup, List.mem_flatten,
    bne_iff_ne]

lemma respects_merged (tn : TN) (l : String)
    (hR : ∀ t ∈ tn, Respects t) : Respects (mergedTensor tn l) := by
  intro a b hab
  show (∑ v ∈ Finset.range (dimAt tn l), _) = ∑ v ∈ Finset.range (dimAt tn l), _
  refine Finset.sum_congr rfl ?_
  intro v _
  refine congrArg List.prod (List.map_congr_left ?_)
  intro t ht
  refine hR t (List.mem_of_mem_filter ht) _ _ ?_
  intro s hs
  by_cases hsl : s = l
  · simp [upd, hsl]
  · have hm : s ∈ (mergedTensor tn l).legs :=
      mem_merged_legs.mpr ⟨⟨t, ht, hs⟩, hsl⟩
    simp [upd, hsl, hab s hm]

lemma dimAt_eq_of_mem {tn : TN}
    (hd : ∀ t ∈ tn, ∀ u ∈ tn, ∀ s, s ∈ t.legs → s ∈ u.legs → t.dim s = u.dim s)
    {t : Tensor} (ht : t ∈ tn) {s : String} (hs : s ∈ t.legs) :
    dimAt tn s = t.dim s := by
  cases hfind : tn.find? (fun u => u.hasLeg s) with
  | none =>
    have := List.find?_eq_none.mp hfind t ht
    exact absurd (hasLeg_iff.mpr hs) this
  | some u =>
    have hu : u ∈ tn := List.mem_of_find?_eq_some hfind
    have hps := List.find?_some hfind
    have hus : s ∈ u.legs := hasLeg_iff.mp (by simpa using hps)
    have hval : dimAt tn s = u.dim s := by
      simp [dimAt, hfind]
    rw [hval]
    exact hd u hu t ht s hus hs

lemma dims_tensorsWith {tn : TN}
    (hd : ∀ t ∈ tn, ∀ u ∈ tn, ∀ s, s ∈ t.legs → s ∈ u.legs → t.dim s = u.dim s)
    (l : String) :
    ∀ t ∈ tensorsWith tn l, ∀ u ∈ tensorsWith tn l, ∀ s, s ∈ t.legs →
      s ∈ u.legs → t.dim s = u.dim s := by
  intro t ht u hu
  exact hd t (List.mem_of_mem_filter ht) u (List.mem_of_mem_filter hu)

lemma dims_core {tn : TN} (l : String)
    (hd : ∀ t ∈ tn, ∀ u ∈ tn, ∀ s, s ∈ t.legs → s ∈ u.legs → t.dim s = u.dim s) :
    ∀ t ∈ contractIndCore tn l, ∀ u ∈ contractIndCore tn l, ∀ s, s ∈ t.legs →
      s ∈ u.legs → t.dim s = u.dim s := by
  have key : ∀ t ∈ tn, ∀ s, s ∈ t.legs → s ∈ (mergedTensor tn l).legs →
      t.dim s = (mergedTensor tn l).dim s := by
    intro t ht s hs hm
    rcases mem_merged_legs.mp hm with ⟨⟨u, hu, hus⟩, _⟩
    have h1 : (mergedTensor tn l).dim s = dimAt (tensorsWith tn l) s := rfl
    rw [h1, dimAt_eq_of_mem (dims_tensorsWith hd l) hu hus]
    exact hd t ht u (List.mem_of_mem_filter hu) s hs hus
  intro t ht u hu s hs hus
  rcases List.mem_append.mp ht with ht' | ht' <;>
    rcases List.mem_append.mp hu with hu' | hu'
  · exact hd t (List.mem_of_mem_filter ht') u (List.mem_of_mem_filter hu') s hs hus
  · have hu'' : u = mergedTensor tn l := by simpa using hu'
    subst hu''
    exact key t (List.mem_of_mem_filter ht') s hs hus
  · have ht'' : t = mergedTensor tn l := by simpa using ht'
    subst ht''
    exact (key u (List.mem_of_mem_filter hu') s hus hs).symm
  · have ht'' : t = mergedTensor tn l := by simpa using ht'
    have hu'' : u = mergedTensor tn l := by simpa using hu'
    subst ht''; subst hu''; rfl

lemma WF_core {tn : TN} (l : String) (h : WF tn) : WF (contractIndCore tn l) := by
  refine ⟨?_, dims_core l h.2⟩
  intro t ht
  rcases List.mem_append.mp ht with ht' | ht'
  · exact h.1 t (List.mem_of_mem_filter ht')
  · have ht'' : t = mergedTensor tn l := by simpa using ht'
    subst ht''
    exact respects_merged tn l h.1

lemma weight_core (tn : TN) (l : String) (a : String → Nat)
    (hR : ∀ t ∈ tn, Respects t) :
    weight (contractIndCore tn l) a
      = ∑ v ∈ Finset.range (dimAt tn l), weight tn (upd a l v) := by
  have hmerged : (mergedTensor tn l).data a
      = ∑ v ∈ Finset.range (dimAt tn l), weight (tensorsWith tn l) (upd a l v) := rfl
  have hrest : ∀ v, weight (tn.filter (fun t => !(t.hasLeg l))) (upd a l v)
      = weight (tn.filter (fun t => !(t.hasLeg l))) a := by
    intro v
    refine weight_congr ?_
    intro t ht
    have hmem := List.mem_of_mem_filter ht
    have hnl : l ∉ t.legs := by
      have := (List.mem_filter.mp ht).2
      simpa [Tensor.hasLeg] using this
    refine hR t hmem _ _ ?_
    intro s hs
    have : s ≠ l := fun he => hnl (he ▸ hs)
    simp [upd, this]
  calc weight (contractIndCore tn l) a
      = weight (tn.filter (fun t => !(t.hasLeg l))) a
          * (mergedTensor tn l).data a := by
        rw [contractIndCore, weight_append, weight_cons, weight_nil, mul_one]
    _ = ∑ v ∈ Finset.range (dimAt tn l),
          weight (tensorsWith tn l) (upd a l v)
            * weight (tn.filter (fun t => !(t.hasLeg l))) a := by
        rw [hmerged, Finset.mul_sum]
        exact Finset.sum_congr rfl (fun v _ => mul_comm _ _)
    _ = ∑ v ∈ Finset.range (dimAt tn l), weight tn (upd a l v) := by
        refine Finset.sum_congr rfl ?_
        intro v _
        rw [← hrest v]
        exact weight_filter_mul tn (fun t => t.hasLeg l) (upd a l v)

lemma contains_core_imp {tn : TN} {l l' : String}
    (h : containsInd (contractIndCore tn l) l' = true) (hne : l' ≠ l) :
    containsInd tn l' = true := by
  rcases containsInd_iff.mp h with ⟨t, ht, hs⟩
  rcases List.mem_append.mp ht with ht' | ht'
  · exact containsInd_iff.mpr ⟨t, List.mem_of_mem_filter ht', hs⟩
  · have ht'' : t = mergedTensor tn l := by simpa using ht'
    subst ht''
    rcases (mem_merged_legs.mp hs).1 with ⟨u, hu, hus⟩
    exact containsInd_iff.mpr ⟨u, List.mem_of_mem_filter hu, hus⟩

lemma dimAt_eq_zero_of_not_contains {tn : TN} {l : String}
    (h : containsInd tn l = false) : dimAt tn l = 0 := by
  have hfind : tn.find? (fun t => t.hasLeg l) = none := by
    refine List.find?_eq_none.mpr ?_
    intro t ht hx
    rw [Bool.eq_false_iff] at h
    exact h (containsInd_iff.mpr ⟨t, ht, hasLeg_iff.mp hx⟩)
  simp [dimAt, hfind]

lemma dimAt_core_self (tn : TN) (l : String) :
    dimAt (contractIndCore tn l) l = 0 :=
  dimAt_eq_zero_of_not_contains (contains_core_self tn l)

lemma dimAt_core_ne {tn : TN} (l l' : String)
    (hd : ∀ t ∈ tn, ∀ u ∈ tn, ∀ s, s ∈ t.legs → s ∈ u.legs → t.dim s = u.dim s)
    (hne : l' ≠ l) :
    dimAt (contractIndCore tn l) l' = dimAt tn l' := by
  by_cases hc : containsInd tn l' = true
  · rcases containsInd_iff.mp hc with ⟨t, ht, hs⟩
    have h1 : dimAt tn l' = t.dim l' := dimAt_eq_of_mem hd ht hs
    by_cases hL : t.hasLeg l = true
    · have htw : t ∈ tensorsWith tn l := List.mem_filter.mpr ⟨ht, hL⟩
      have hm : l' ∈ (mergedTensor tn l).legs :=
        mem_merged_legs.mpr ⟨⟨t, htw, hs⟩, hne⟩
      have h2 : dimAt (contractIndCore tn l) l' = (mergedTensor tn l).dim l' :=
        dimAt_eq_of_mem (dims_core l hd) (by simp [contractIndCore]) hm
      have h3 : (mergedTensor tn l).dim l' = dimAt (tensorsWith tn l) l' := rfl
      rw [h2, h3, dimAt_eq_of_mem (dims_tensorsWith hd l) htw hs, h1]
    · have htr : t ∈ contractIndCore tn l := by
        refine List.mem_append.mpr (Or.inl ?_)
        refine List.mem_filter.mpr ⟨ht, ?_⟩
        simp [Bool.not_eq_true] at hL
        simp [hL]
      rw [dimAt_eq_of_mem (dims_core l hd) htr hs, h1]
  · rw [Bool.not_eq_true] at hc
    rw [dimAt_eq_zero_of_not_contains hc]
    by_cases hc2 : containsInd (contractIndCore tn l) l' = true
    · exact absurd (contains_core_imp hc2 hne) (by simp [hc])
    · rw [Bool.not_eq_true] at hc2
      exact dimAt_eq_zero_of_not_contains hc2

lemma upd_comm {x y : String} (hne : x ≠ y) (b : String → Nat) (v w : Nat) :
    upd (upd b x v) y w = upd (upd b y w) x v := by
  funext s
  by_cases hy : s = y
  · subst hy
    simp [upd, Ne.symm hne]
  · by_cases hx : s = x <;> simp [upd, hx, hy, hne]

lemma weight_foldl_congr (L : List String) :
    ∀ (tn1 tn2 : TN), WF tn1 → WF tn2 →
      (∀ a, weight tn1 a = weight tn2 a) →
      (∀ l, dimAt tn1 l = dimAt tn2 l) →
      ∀ a, weight (L.foldl contractIndCore tn1) a
        = weight (L.foldl contractIndCore tn2) a := by
  induction L with
  | nil => intro tn1 tn2 _ _ hw _ a; exact hw a
  | cons l L ih =>
    intro tn1 tn2 h1 h2 hw hd a
    simp only [List.foldl_cons]
    refine ih _ _ (WF_core l h1) (WF_core l h2) ?_ ?_ a
    · intro b
      rw [weight_core tn1 l b h1.1, weight_core tn2 l b h2.1, hd l]
      exact Finset.sum_congr rfl (fun v _ => hw _)
    · intro l'
      by_cases hne : l' = l
      · subst hne
        rw [dimAt_core_self, dimAt_core_self]
      · rw [dimAt_core_ne l l' h1.2 hne, dimAt_core_ne l l' h2.2 hne]
        exact hd l'

lemma weight_foldl_perm {L1 L2 : List String} (hp : L1.Perm L2) :
    ∀ tn : TN, WF tn → ∀ a,
      weight (L1.foldl contractIndCore tn) a
        = weight (L2.foldl contractIndCore tn) a := by
  induction hp with
  | nil => intro tn _ a; rfl
  | cons x _ ih =>
    intro tn h a
    simp only [List.foldl_cons]
    exact ih (contractIndCore tn x) (WF_core x h) a
  | swap x y L =>
    intro tn h a
    simp only [List.foldl_cons]
    by_cases hxy : x = y
    · subst hxy; rfl
    · refine weight_foldl_congr L _ _
        (WF_core x (WF_core y h)) (WF_core y (WF_core x h)) ?_ ?_ a
      · intro b
        rw [weight_core _ x b (WF_core y h).1, weight_core _ y b (WF_core x h).1]
        rw [dimAt_core_ne y x h.2 hxy, dimAt_core_ne x y h.2 (Ne.symm hxy)]
        have hx : ∀ v, weight (contractIndCore tn y) (upd b x v)
            = ∑ w ∈ Finset.range (dimAt tn y), weight tn (upd (upd b x v) y w) := by
          intro v
          exact weight_core tn y (upd b x v) h.1
        have hy : ∀ w, weight (contractIndCore tn x) (upd b y w)
            = ∑ v ∈ Finset.range (dimAt tn x), weight tn (upd (upd b y w) x v) := by
          intro w
          exact weight_core tn x (upd b y w) h.1
        calc (∑ v ∈ Finset.range (dimAt tn x),
                weight (contractIndCore tn y) (upd b x v))
            = ∑ v ∈ Finset.range (dimAt tn x), ∑ w ∈ Finset.range (dimAt tn y),
                weight tn (upd (upd b x v) y w) :=
              Finset.sum_congr rfl (fun v _ => hx v)
          _ = ∑ w ∈ Finset.range (dimAt tn y), ∑ v ∈ Finset.range (dimAt tn x),
                weight tn (upd (upd b x v) y w) := Finset.sum_comm
          _ = ∑ w ∈ Finset.range (dimAt tn y),
                weight (contractIndCore tn x) (upd b y w) := by
              refine Finset.sum_congr rfl ?_
              intro w _
              rw [hy w]
              refine Finset.sum_congr rfl ?_
              intro v _
              rw [upd_comm hxy]
      · intro l'
        by_cases hlx : l' = x
        · rw [hlx, dimAt_core_self, dimAt_core_ne y x (dims_core x h.2) hxy,
            dimAt_core_self]
        · by_cases hly : l' = y
          · rw [hly, dimAt_core_ne x y (dims_core y h.2) (Ne.symm hxy),
              dimAt_core_self, dimAt_core_self]
          · rw [dimAt_core_ne x l' (dims_core y h.2) hlx,
              dimAt_core_ne y l' h.2 hly,
              dimAt_core_ne y l' (dims_core x h.2) hly,
              dimAt_core_ne x l' h.2 hlx]
  | trans _ _ ih1 ih2 =>
    intro tn h a
    exact (ih1 tn h a).trans (ih2 tn h a)

/-- Claim C7: order-independence of full contraction.  For a fixed
well-formed network, contracting the internal labels in any permutation of
the order `contract()` uses yields a numerically identical result: the
pointwise numeric content of the resulting network is the same, because
the sum-product contraction is associative and commutative over the shared
axes. -/
theorem claim_C7_order_independence (c : TensorNetworkCode)
    (h : WF c.network) (L : List String)
    (hp : L.Perm (sharedInds c.network)) (a : String → Nat) :
    weight (L.foldl contractIndCore c.network) a = weight c.contract a :=
  weight_foldl_perm hp c.network h a

/-- Witness for claim C7 on the concrete three-tensor chain: contracting
its two shared legs in the reversed order gives the same numeric result as
`contract()`. -/
theorem claim_C7_order_independence_witness :
    WF code1.network ∧
    weight ((["c", "b"]).foldl contractIndCore code1.network) (fun _ => 0)
      = weight code1.contract (fun _ => 0) := by
  have hwf : WF code1.network := by
    constructor
    · intro t ht
      have hm : t = Ta ∨ t = Tb ∨ t = Tc := by
        simpa [code1, TensorNetworkCode.init] using ht
      rcases hm with rfl | rfl | rfl
      · intro f g hfg
        show ((f "a" : Int) + f "b") = ((g "a" : Int) + g "b")
        rw [hfg "a" (by simp [Ta]), hfg "b" (by simp [Ta])]
      · intro f g hfg
        show ((f "b" : Int) * f "c") = ((g "b" : Int) * g "c")
        rw [hfg "b" (by simp [Tb]), hfg "c" (by simp [Tb])]
      · intro f g hfg
        show ((f "c" : Int) - f "d") = ((g "c" : Int) - g "d")
        rw [hfg "c" (by simp [Tc]), hfg "d" (by simp [Tc])]
    · intro t ht u hu s hs hus
      have hm : t = Ta ∨ t = Tb ∨ t = Tc := by
        simpa [code1, TensorNetworkCode.init] using ht
      have hm2 : u = Ta ∨ u = Tb ∨ u = Tc := by
        simpa [code1, TensorNetworkCode.init] using hu
      rcases hm with rfl | rfl | rfl <;> rcases hm2 with rfl | rfl | rfl <;> rfl
  exact ⟨hwf,
    claim_C7_order_independence code1 hwf ["c", "b"] (by decide) (fun _ => 0)⟩
